import Mathlib

/-!
# Verification of the FCPP realtime-evaluation examples

Shallow embedding of the coordination routines in `lib/examples.hpp`
(namespace `fcpp::coordination`) and proofs about them.

Numeric types: `times_t` and `real_t` (C++ doubles) are modelled as
rationals; `device_t` as naturals.  A `time_dict`
(`std::unordered_map<device_t, std::pair<times_t, real_t>>`) is modelled
as an association list; since the C++ container is an unordered map,
map equality is extensional equality of `lookup`.
-/

namespace Fcpp

/-- Timestamps (`times_t`), modelled as rationals. -/
abbrev times_t := ℚ

/-- Real values (`real_t`), modelled as rationals. -/
abbrev real_t := ℚ

/-- Device identifiers (`device_t`). -/
abbrev device_t := ℕ

/-- One mapped value of a `time_dict`: a (timestamp, payload) pair. -/
abbrev tentry := times_t × real_t

/-- The `time_dict` type: an association list from device ids to timestamped
values, standing for `std::unordered_map<device_t, std::pair<times_t, real_t>>`. -/
abbrev time_dict := List (device_t × tentry)

/-- Map lookup: the value of the first entry carrying the key. -/
def lookup (m : time_dict) (k : device_t) : Option tentry :=
  (m.find? (fun kv => kv.1 == k)).map (fun kv => kv.2)

/-- The keys of `m` are pairwise distinct (the `unordered_map` invariant). -/
def nodupKeys (m : time_dict) : Prop :=
  (m.map (fun kv => kv.1)).Nodup

/-- Source `update` (examples.hpp:43-53): merges two `time_dict` by
preferring the most recent value for each key.  The first C++ loop
replaces values in `x` whose key has a strictly more recent value in
`y`; the second inserts the entries of `y` whose key is absent in `x`. -/
def update (x y : time_dict) : time_dict :=
  (x.map (fun kv =>
    match lookup y kv.1 with
    | some e => if e.1 > kv.2.1 then (kv.1, e) else kv
    | none => kv))
  ++ y.filter (fun kv => (lookup x kv.1).isNone)

/-- Source `discard` (examples.hpp:56-61): erases every entry whose
timestamp is strictly below the threshold. -/
def discard (x : time_dict) (t : times_t) : time_dict :=
  x.filter (fun kv => ! decide (kv.2.1 < t))

/-- Source `max_value` (examples.hpp:64-69): folds `max` over the payloads
starting from the accumulator `val = 0`. -/
def max_value (m : time_dict) : real_t :=
  m.foldl (fun val kv => max val kv.2.2) 0

/-- The per-key effect of `update`: keep the entry with the strictly
greater timestamp, ties keeping the left one; a key on one side only
keeps that side's entry. -/
def updateEntry : Option tentry → Option tentry → Option tentry
  | some a, some b => some (if b.1 > a.1 then b else a)
  | some a, none => some a
  | none, ob => ob

theorem lookup_cons (kv : device_t × tentry) (rest : time_dict) (k : device_t) :
    lookup (kv :: rest) k = if kv.1 = k then some kv.2 else lookup rest k := by
  by_cases h : kv.1 = k
  · rw [if_pos h, lookup, List.find?_cons_of_pos _ (by simpa using h)]
    rfl
  · rw [if_neg h, lookup, List.find?_cons_of_neg _ (by simpa using h)]
    rfl

theorem find?_map_keep_key (f : device_t × tentry → device_t × tentry)
    (hf : ∀ kv, (f kv).1 = kv.1) (k : device_t) :
    ∀ x : time_dict, (x.map f).find? (fun kv => kv.1 == k)
      = (x.find? (fun kv => kv.1 == k)).map f := by
  intro x
  induction x with
  | nil => rfl
  | cons kv rest ih =>
      rw [List.map_cons]
      by_cases h : kv.1 = k
      · rw [List.find?_cons_of_pos _ (by simpa [hf] using h),
            List.find?_cons_of_pos _ (by simpa using h)]
        rfl
      · rw [List.find?_cons_of_neg _ (by simpa [hf] using h),
            List.find?_cons_of_neg _ (by simpa using h), ih]

theorem lookup_map_keep_key (f : device_t × tentry → device_t × tentry)
    (hf : ∀ kv, (f kv).1 = kv.1) (x : time_dict) (k : device_t) :
    lookup (x.map f) k
      = (x.find? (fun kv => kv.1 == k)).map (fun kv => (f kv).2) := by
  rcases hx : x.find? (fun kv => kv.1 == k) with _ | kv0 <;>
    rw [lookup, find?_map_keep_key f hf k x, hx] <;> rfl

theorem lookup_filter_keydep (p : device_t → Bool) (k : device_t) :
    ∀ y : time_dict, lookup (y.filter (fun kv => p kv.1)) k
      = if p k then lookup y k else none := by
  intro y
  induction y with
  | nil => simp [lookup]
  | cons kv rest ih =>
      rw [List.filter_cons]
      by_cases hp : p kv.1 = true
      · rw [if_pos hp, lookup_cons, lookup_cons]
        by_cases hk : kv.1 = k
        · subst hk
          simp [hp]
        · rw [if_neg hk, if_neg hk, ih]
      · rw [if_neg hp, ih, lookup_cons]
        by_cases hk : kv.1 = k
        · rw [hk] at hp
          rw [if_neg (by simpa using hp), if_neg (by simpa using hp)]
        · rw [if_neg hk]

theorem lookup_append (x y : time_dict) (k : device_t) :
    lookup (x ++ y) k = ((lookup x k).or (lookup y k)) := by
  induction x with
  | nil => simp [lookup]
  | cons kv rest ih =>
      rw [List.cons_append, lookup_cons, lookup_cons]
      by_cases hk : kv.1 = k
      · rw [if_pos hk, if_pos hk]
        rfl
      · rw [if_neg hk, if_neg hk, ih]

theorem lookup_eq_none_of_find?_eq_none (x : time_dict) (k : device_t)
    (hx : x.find? (fun kv => kv.1 == k) = none) : lookup x k = none := by
  rw [lookup, hx]
  rfl

theorem lookup_eq_some_of_find?_eq_some (x : time_dict) (k : device_t)
    (kv0 : device_t × tentry) (hx : x.find? (fun kv => kv.1 == k) = some kv0) :
    lookup x k = some kv0.2 := by
  rw [lookup, hx]
  rfl

/-- Per-key characterisation of `update`. -/
theorem lookup_update (x y : time_dict) (k : device_t) :
    lookup (update x y) k = updateEntry (lookup x k) (lookup y k) := by
  have hf : ∀ kv : device_t × tentry,
      ((fun kv : device_t × tentry =>
        match lookup y kv.1 with
        | some e => if e.1 > kv.2.1 then (kv.1, e) else kv
        | none => kv) kv).1 = kv.1 := by
    intro kv
    rcases h : lookup y kv.1 with _ | e
    · simp [h]
    · by_cases hgt : e.1 > kv.2.1 <;> simp [h, hgt]
  rw [update, lookup_append, lookup_map_keep_key _ hf,
    lookup_filter_keydep (fun j => (lookup x j).isNone) k y]
  rcases hx : x.find? (fun kv => kv.1 == k) with _ | kv0
  · have hxl : lookup x k = none := lookup_eq_none_of_find?_eq_none x k hx
    rw [hx, hxl]
    rcases hy : lookup y k with _ | e <;> simp [updateEntry, hy]
  · have hkey : kv0.1 = k := by
      have := List.find?_some hx
      simpa using this
    have hxl : lookup x k = some kv0.2 :=
      lookup_eq_some_of_find?_eq_some x k kv0 hx
    rw [hx, hxl]
    have hstep : (Option.map (fun kv : device_t × tentry =>
        (match lookup y kv.1 with
          | some e => if e.1 > kv.2.1 then (kv.1, e) else kv
          | none => kv).2) (some kv0)).or
        (if (some kv0.2).isNone = true then lookup y k else none)
      = some ((match lookup y kv0.1 with
          | some e => if e.1 > kv0.2.1 then (kv0.1, e) else kv0
          | none => kv0).2) := rfl
    rw [hstep, hkey]
    rcases hy : lookup y k with _ | e
    · rfl
    · have hu : updateEntry (some kv0.2) (some e)
          = some (if e.1 > kv0.2.1 then e else kv0.2) := rfl
      rw [hu]
      by_cases hgt : e.1 > kv0.2.1 <;> simp [hgt]

theorem updateEntry_assoc (a b c : Option tentry) :
    updateEntry (updateEntry a b) c = updateEntry a (updateEntry b c) := by
  rcases a with _ | a <;> rcases b with _ | b <;> rcases c with _ | c <;>
    simp only [updateEntry] <;> split_ifs <;>
      first
        | rfl
        | (exfalso; linarith)

theorem updateEntry_comm (a b : Option tentry)
    (h : ∀ ea eb, a = some ea → b = some eb → ea.1 = eb.1 → ea = eb) :
    updateEntry a b = updateEntry b a := by
  rcases a with _ | a
  · rcases b with _ | b
    · rfl
    · rfl
  rcases b with _ | b
  · rfl
  simp only [updateEntry]
  split_ifs with h1 h2 h2
  · exfalso
    exact absurd (lt_trans h1 h2) (lt_irrefl _)
  · rfl
  · rfl
  · exact congrArg some (h a b rfl rfl (le_antisymm (not_lt.mp h2) (not_lt.mp h1)))

theorem lookup_eq_none_of_not_mem_keys (m : time_dict) (k : device_t)
    (h : k ∉ m.map (fun kv => kv.1)) : lookup m k = none := by
  induction m with
  | nil => rfl
  | cons kv rest ih =>
      rw [List.map_cons] at h
      have h1 : ¬ kv.1 = k := fun he => h (by rw [he]; exact List.mem_cons_self _ _)
      have h2 : k ∉ rest.map (fun kv => kv.1) := fun hm => h (List.mem_cons_of_mem _ hm)
      rw [lookup_cons, if_neg h1, ih h2]

theorem lookup_discard (m : time_dict) (t : times_t) (h : nodupKeys m)
    (k : device_t) :
    lookup (discard m t) k
      = match lookup m k with
        | some e => if e.1 < t then none else some e
        | none => none := by
  induction m with
  | nil => rfl
  | cons kv rest ih =>
      have hnd : nodupKeys rest := by
        have := h
        rw [nodupKeys, List.map_cons, List.nodup_cons] at this
        exact this.2
      have hk0 : kv.1 ∉ rest.map (fun kv => kv.1) := by
        have := h
        rw [nodupKeys, List.map_cons, List.nodup_cons] at this
        exact this.1
      rw [discard, List.filter_cons, lookup_cons]
      by_cases hts : kv.2.1 < t
      · rw [if_neg (by simpa using hts)]
        by_cases hk : kv.1 = k
        · subst hk
          rw [if_pos rfl]
          have : lookup (discard rest t) kv.1 = none := by
            rw [ih hnd, lookup_eq_none_of_not_mem_keys rest kv.1 hk0]
          rw [show List.filter (fun kv => ! decide (kv.2.1 < t)) rest
              = discard rest t from rfl, this]
          simp [hts]
        · rw [if_neg hk]
          exact ih hnd
      · rw [if_pos (by simpa using hts), lookup_cons]
        by_cases hk : kv.1 = k
        · rw [if_pos hk, if_pos hk]
          simp [hts]
        · rw [if_neg hk, if_neg hk]
          exact ih hnd

theorem discard_discard (m : time_dict) (t : times_t) :
    discard (discard m t) t = discard m t := by
  rw [discard, discard, List.filter_filter]
  congr 1
  funext kv
  exact Bool.and_self _

/-- C1 (amended): merging `time_dict` maps with `update` is associative,
and it is commutative — hence folding a finite collection in any grouping
and order yields the same map — provided that no key carries records with
equal timestamps but unequal contents on the two sides.  (The unrestricted
claim fails: on equal-timestamp ties `update` keeps the left operand's
record, see the counterexample.) -/
theorem update_assoc_and_tiefree_comm (x y z : time_dict)
    (hties : ∀ k ea eb, lookup x k = some ea → lookup y k = some eb →
      ea.1 = eb.1 → ea = eb) :
    (∀ k, lookup (update (update x y) z) k
      = lookup (update x (update y z)) k) ∧
    (∀ k, lookup (update x y) k = lookup (update y x) k) := by
  constructor
  · intro k
    rw [lookup_update, lookup_update, lookup_update, lookup_update,
      updateEntry_assoc]
  · intro k
    rw [lookup_update, lookup_update]
    exact updateEntry_comm _ _ (fun ea eb hx hy => hties k ea eb hx hy)

theorem update_assoc_and_tiefree_comm_witness :
    (∀ k, lookup (update (update [(0, ((0 : ℚ), (1 : ℚ)))]
        [(0, ((1 : ℚ), (5 : ℚ)))]) [(1, ((1 : ℚ), (2 : ℚ)))]) k
      = lookup (update [(0, ((0 : ℚ), (1 : ℚ)))]
          (update [(0, ((1 : ℚ), (5 : ℚ)))] [(1, ((1 : ℚ), (2 : ℚ)))])) k) ∧
    (∀ k, lookup (update [(0, ((0 : ℚ), (1 : ℚ)))] [(0, ((1 : ℚ), (5 : ℚ)))]) k
      = lookup (update [(0, ((1 : ℚ), (5 : ℚ)))] [(0, ((0 : ℚ), (1 : ℚ)))]) k) :=
  update_assoc_and_tiefree_comm [(0, ((0 : ℚ), (1 : ℚ)))]
    [(0, ((1 : ℚ), (5 : ℚ)))] [(1, ((1 : ℚ), (2 : ℚ)))]
    (by
      intro k ea eb hx hy hts
      rw [lookup_cons] at hx hy
      by_cases hk : (0 : device_t) = k
      · rw [if_pos hk] at hx hy
        cases hx
        cases hy
        norm_num at hts
      · rw [if_neg hk] at hx
        simp [lookup] at hx)

/-- C1 (counterexample): two maps carrying the same key with equal
timestamps but different payloads merge differently in the two orders, so
`update` is not commutative on such maps. -/
theorem update_tie_comm_counterexample :
    lookup (update [(0, ((0 : ℚ), (1 : ℚ)))] [(0, ((0 : ℚ), (2 : ℚ)))]) 0
      ≠ lookup (update [(0, ((0 : ℚ), (2 : ℚ)))] [(0, ((0 : ℚ), (1 : ℚ)))]) 0 := by
  decide

/-- C2: per-key semantics of `update`: a key present on both sides keeps
the record with the strictly larger timestamp (ties keep `x`'s record), a
key present on one side keeps that side's record, and the key set of
`update x y` is the union of the key sets of `x` and `y`. -/
theorem update_per_key_semantics (x y : time_dict) (k : device_t) :
    (∀ ea eb, lookup x k = some ea → lookup y k = some eb →
      lookup (update x y) k = some (if eb.1 > ea.1 then eb else ea)) ∧
    (∀ ea, lookup x k = some ea → lookup y k = none →
      lookup (update x y) k = some ea) ∧
    (∀ eb, lookup x k = none → lookup y k = some eb →
      lookup (update x y) k = some eb) ∧
    ((lookup (update x y) k).isSome
      ↔ (lookup x k).isSome ∨ (lookup y k).isSome) := by
  have h := lookup_update x y k
  refine ⟨?_, ?_, ?_, ?_⟩
  · intro ea eb hx hy
    rw [h, hx, hy]
    rfl
  · intro ea hx hy
    rw [h, hx, hy]
    rfl
  · intro eb hx hy
    rw [h, hx, hy]
    rfl
  · rw [h]
    rcases lookup x k with _ | a <;> rcases lookup y k with _ | b <;>
      simp [updateEntry]

/-- C6: `discard m t` removes exactly the records with timestamp strictly
below `t`, leaves every other record unchanged, and is idempotent. -/
theorem discard_removes_exactly_and_idem (m : time_dict) (t : times_t)
    (h : nodupKeys m) :
    (∀ k, lookup (discard m t) k
      = match lookup m k with
        | some e => if e.1 < t then none else some e
        | none => none) ∧
    discard (discard m t) t = discard m t :=
  ⟨lookup_discard m t h, discard_discard m t⟩

theorem discard_removes_exactly_and_idem_witness :
    (∀ k, lookup (discard [(0, ((0 : ℚ), (5 : ℚ))), (1, ((2 : ℚ), (7 : ℚ)))] 1) k
      = match lookup [(0, ((0 : ℚ), (5 : ℚ))), (1, ((2 : ℚ), (7 : ℚ)))] k with
        | some e => if e.1 < 1 then none else some e
        | none => none) ∧
    discard (discard [(0, ((0 : ℚ), (5 : ℚ))), (1, ((2 : ℚ), (7 : ℚ)))] 1) 1
      = discard [(0, ((0 : ℚ), (5 : ℚ))), (1, ((2 : ℚ), (7 : ℚ)))] 1 :=
  discard_removes_exactly_and_idem
    [(0, ((0 : ℚ), (5 : ℚ))), (1, ((2 : ℚ), (7 : ℚ)))] 1
    (by unfold nodupKeys; decide)

/-- FCPP `fold_hood(CALL, f, n)`: reduction of the neighbour field `n` with
the binary combinator `f`.  The field always holds the local device's own
entry (`selfv`, its last export) plus the other devices' entries
(`others`); the fold runs over all of them in an unspecified order,
modelled here as a left fold seeded with the self entry. -/
def fold_hood (f : time_dict → time_dict → time_dict) (selfv : time_dict)
    (others : List time_dict) : time_dict :=
  others.foldl f selfv

/-- The map built by one round of `maximize` (examples.hpp:124-131): the
body of its `nbr` merges the fold of the neighbour field with the local
singleton `loc = {uid ↦ (t, v)}` and discards entries older than
`t - threshold`. -/
def maximizeGlob (uid : device_t) (t : times_t) (v : real_t)
    (threshold : times_t) (selfv : time_dict) (others : List time_dict) :
    time_dict :=
  discard (update (fold_hood update selfv others) [(uid, (t, v))])
    (t - threshold)

/-- The value `maximize` returns for the round: `max_value` of that map. -/
def maximizeRound (uid : device_t) (t : times_t) (v : real_t)
    (threshold : times_t) (selfv : time_dict) (others : List time_dict) :
    real_t :=
  max_value (maximizeGlob uid t v threshold selfv others)

theorem foldl_max_init_le (l : List (device_t × tentry)) :
    ∀ a : ℚ, a ≤ l.foldl (fun val kv => max val kv.2.2) a := by
  induction l with
  | nil => intro a; exact le_refl a
  | cons kv rest ih =>
      intro a
      exact le_trans (le_max_left a kv.2.2) (ih (max a kv.2.2))

theorem foldl_max_mem_le (l : List (device_t × tentry)) :
    ∀ (a : ℚ) (kv : device_t × tentry), kv ∈ l →
      kv.2.2 ≤ l.foldl (fun val kv => max val kv.2.2) a := by
  induction l with
  | nil => intro a kv h; exact absurd h (List.not_mem_nil kv)
  | cons kv0 rest ih =>
      intro a kv h
      rcases List.mem_cons.mp h with he | hm
      · subst he
        exact le_trans (le_max_right a kv.2.2) (foldl_max_init_le rest _)
      · exact ih (max a kv0.2.2) kv hm

theorem foldl_max_eq_init_or_mem (l : List (device_t × tentry)) :
    ∀ a : ℚ, l.foldl (fun val kv => max val kv.2.2) a = a ∨
      ∃ kv ∈ l, l.foldl (fun val kv => max val kv.2.2) a = kv.2.2 := by
  induction l with
  | nil => intro a; exact Or.inl rfl
  | cons kv0 rest ih =>
      intro a
      rcases ih (max a kv0.2.2) with h | ⟨kv, hkv, he⟩
      · rw [List.foldl_cons, h]
        rcases max_choice a kv0.2.2 with hc | hc
        · exact Or.inl hc
        · exact Or.inr ⟨kv0, List.mem_cons_self kv0 rest, hc⟩
      · exact Or.inr ⟨kv, List.mem_cons_of_mem kv0 hkv, he⟩

/-- C10: `max_value` of the empty map is 0 and in general it is the
maximum of 0 and the payloads (its fold accumulator starts at 0), so
`maximize` never reports a negative value. -/
theorem max_value_zero_floor :
    max_value [] = 0 ∧
    (∀ m : time_dict, 0 ≤ max_value m ∧
      (∀ kv ∈ m, kv.2.2 ≤ max_value m) ∧
      (max_value m = 0 ∨ ∃ kv ∈ m, max_value m = kv.2.2)) ∧
    (∀ (uid : device_t) (t : times_t) (v : real_t) (threshold : times_t)
      (selfv : time_dict) (others : List time_dict),
      0 ≤ maximizeRound uid t v threshold selfv others) := by
  refine ⟨rfl, ?_, ?_⟩
  · intro m
    exact ⟨foldl_max_init_le m 0,
      fun kv h => foldl_max_mem_le m 0 kv h,
      foldl_max_eq_init_or_mem m 0⟩
  · intro uid t v threshold selfv others
    exact foldl_max_init_le _ 0

/-- C4 (amended): one round of `maximize` builds the singleton
`{uid ↦ (t, v)}`, folds the neighbour field with `update`, merges its own
singleton, discards entries with timestamp older than `t - threshold`,
and then returns `max_value` of that map: the maximum of 0 and the
payloads present, not the bare maximum payload (which it exceeds when all
payloads are negative). -/
theorem maximize_round_structure (uid : device_t) (t : times_t) (v : real_t)
    (threshold : times_t) (selfv : time_dict) (others : List time_dict) :
    maximizeRound uid t v threshold selfv others
      = max_value (discard (update (fold_hood update selfv others)
          [(uid, (t, v))]) (t - threshold)) ∧
    0 ≤ maximizeRound uid t v threshold selfv others ∧
    (∀ kv ∈ maximizeGlob uid t v threshold selfv others,
      kv.2.2 ≤ maximizeRound uid t v threshold selfv others) ∧
    (maximizeRound uid t v threshold selfv others = 0 ∨
      ∃ kv ∈ maximizeGlob uid t v threshold selfv others,
        maximizeRound uid t v threshold selfv others = kv.2.2) :=
  ⟨rfl, foldl_max_init_le _ 0,
    fun kv h => foldl_max_mem_le _ 0 kv h,
    foldl_max_eq_init_or_mem _ 0⟩

/-- C4 (counterexample): with a negative local value and no fresher
records, the resulting map holds the single payload -1, yet `maximize`
returns 0, not the maximum payload present. -/
theorem maximize_payload_counterexample :
    maximizeRound 0 0 (-1) 0 [(0, ((0 : ℚ), (-1 : ℚ)))] [] = 0 ∧
    (maximizeGlob 0 0 (-1) 0 [(0, ((0 : ℚ), (-1 : ℚ)))] []).map
      (fun kv => kv.2.2) = [(-1 : ℚ)] := by
  have hglob : maximizeGlob 0 0 (-1) 0 [(0, ((0 : ℚ), (-1 : ℚ)))] []
      = [(0, ((0 : ℚ), (-1 : ℚ)))] := by
    norm_num [maximizeGlob, fold_hood, update, discard, lookup]
  constructor
  · show max_value (maximizeGlob 0 0 (-1) 0 [(0, ((0 : ℚ), (-1 : ℚ)))] []) = 0
    rw [hglob]
    show max 0 (-1 : ℚ) = 0
    norm_num
  · rw [hglob]
    rfl

/-- Modelled from the spec: `hops_t` (defined in the FCPP library, outside
this repository) is a bounded unsigned-representable integer type whose
maximum value is some `M ≥ 1`; hop counts are modelled as naturals bounded
by `M`.  `HOPS_MAX = std::numeric_limits<hops_t>::max() - 1` is then
`M - 1` (examples.hpp:37). -/
def HOPS_MAX (M : ℕ) : ℕ := M - 1

/-- FCPP `min_hood(CALL, d, hmax)`: minimum of the neighbour field values
and the extra default `hmax`. -/
def min_hood (d : List ℕ) (hmax : ℕ) : ℕ := d.foldr min hmax

/-- One round of `dist` (examples.hpp:147-151): a source outputs 0, any
other device outputs `min_hood(d, HOPS_MAX) + 1` over the neighbour field
`d` of hop counts. -/
def distRound (M : ℕ) (source : Bool) (d : List ℕ) : ℕ :=
  if source then 0 else min_hood d (HOPS_MAX M) + 1

theorem min_hood_le_default (d : List ℕ) (hmax : ℕ) :
    min_hood d hmax ≤ hmax := by
  induction d with
  | nil => exact le_refl hmax
  | cons a rest ih => exact le_trans (min_le_right a _) ih

/-- C3 (amended): the arithmetic of `dist` never wraps past the maximum
`M` of the `hops_t` type: `min_hood` clamps the fold at
`HOPS_MAX = M - 1`, so the `+ 1` yields at most `M` — the output is capped
at `HOPS_MAX + 1` (the type maximum), not at `HOPS_MAX` itself. -/
theorem dist_round_saturates (M : ℕ) (hM : 1 ≤ M) (source : Bool)
    (d : List ℕ) : distRound M source d ≤ M := by
  rw [distRound]
  by_cases hs : source = true
  · rw [if_pos hs]
    exact Nat.zero_le M
  · rw [if_neg hs]
    have h1 : min_hood d (HOPS_MAX M) ≤ M - 1 := min_hood_le_default d (M - 1)
    omega

theorem dist_round_saturates_witness :
    distRound 32767 false [3, 5] ≤ 32767 :=
  dist_round_saturates 32767 (by norm_num) false [3, 5]

/-- C3 (counterexample): with no reached neighbour the computed value is
`HOPS_MAX + 1`, strictly above the sentinel `HOPS_MAX`, so the output of
`dist` is not capped at `HOPS_MAX` (it is capped at the type maximum
`HOPS_MAX + 1`). -/
theorem dist_exceeds_sentinel_counterexample :
    distRound 32767 false [HOPS_MAX 32767] = HOPS_MAX 32767 + 1 ∧
    ¬ distRound 32767 false [HOPS_MAX 32767] ≤ HOPS_MAX 32767 := by
  constructor
  · rfl
  · decide

/-- Source `lowpass` (examples.hpp:84-88): `old` with update function
`x ↦ (x + v)/2`; iterated over rounds with a constant input `v` starting
from the stored value `x0`. -/
def lowpassStep (v x : real_t) : real_t := (x + v) / 2

/-- The stored `lowpass` value after `n` rounds with constant input. -/
def lowpassIter (v x0 : real_t) : ℕ → real_t
  | 0 => x0
  | n + 1 => lowpassStep v (lowpassIter v x0 n)

theorem lowpassIter_sub_eq (c x0 : real_t) :
    ∀ n : ℕ, lowpassIter c x0 n - c = (x0 - c) / 2 ^ n := by
  intro n
  induction n with
  | zero => simp [lowpassIter]
  | succ n ih =>
      rw [lowpassIter, lowpassStep]
      rw [show (lowpassIter c x0 n + c) / 2 - c
          = (lowpassIter c x0 n - c) / 2 by ring, ih]
      rw [pow_succ]
      ring

/-- C7: feeding a constant `c` every round, the distance of the `lowpass`
output to `c` halves each round, never increases, and falls below any
positive bound eventually: the output converges monotonically to `c`. -/
theorem lowpass_const_convergence (c x0 : real_t) :
    (∀ n, |lowpassIter c x0 (n + 1) - c| = |lowpassIter c x0 n - c| / 2) ∧
    (∀ n, |lowpassIter c x0 (n + 1) - c| ≤ |lowpassIter c x0 n - c|) ∧
    (∀ ε : ℚ, 0 < ε → ∃ N, ∀ n, N ≤ n → |lowpassIter c x0 n - c| < ε) := by
  have habs : ∀ n, |lowpassIter c x0 n - c| = |x0 - c| / 2 ^ n := by
    intro n
    rw [lowpassIter_sub_eq c x0 n, abs_div, abs_pow]
    norm_num
  have hhalf : ∀ n : ℕ,
      |lowpassIter c x0 (n + 1) - c| = |lowpassIter c x0 n - c| / 2 := by
    intro n
    rw [habs n, habs (n + 1), pow_succ]
    ring
  refine ⟨hhalf, ?_, ?_⟩
  · intro n
    rw [hhalf n]
    have h0 : (0 : ℚ) ≤ |lowpassIter c x0 n - c| := abs_nonneg _
    linarith
  · intro ε hε
    obtain ⟨N, hN⟩ := exists_nat_gt (|x0 - c| / ε)
    refine ⟨N, fun n hn => ?_⟩
    rw [habs n]
    have hNn : (N : ℚ) ≤ 2 ^ n := by
      calc (N : ℚ) ≤ (n : ℚ) := by exact_mod_cast hn
        _ ≤ 2 ^ n := by exact_mod_cast Nat.le_of_lt (Nat.lt_two_pow n)
    have hpow : (0 : ℚ) < 2 ^ n := by positivity
    have hlt : |x0 - c| / ε < 2 ^ n := lt_of_lt_of_le hN hNn
    have h2 : |x0 - c| < ε * 2 ^ n := by
      have h3 := (div_lt_iff₀ hε).mp hlt
      linarith [h3, mul_comm (2 ^ n : ℚ) ε]
    exact (div_lt_iff₀ hpow).mpr h2

/-- FCPP `old(CALL, init, f)`: reads the call-site slot (or `init` on the
device's first visit, modelled by `stored = none`), applies `f` and
returns the result (which is also written back to the slot). -/
def old {α : Type} (stored : Option α) (init : α) (f : α → α) : α :=
  f (stored.getD init)

/-- Source `delta_time` (examples.hpp:72-75): the difference between the
current and the previous round time, or 1 on the first round (signalled
by a negative `previous_time` sentinel). -/
def delta_time (previousTime currentTime : times_t) : times_t :=
  if previousTime < 0 then 1 else currentTime - previousTime

/-- One round of `integrate` (examples.hpp:94-98): `old` with init 0 and
update function `x ↦ x + v * delta_time(node)`. -/
def integrateRound (stored : Option real_t)
    (previousTime currentTime : times_t) (v : real_t) : real_t :=
  old stored 0 (fun x => x + v * delta_time previousTime currentTime)

/-- C8: `integrate` returns previous + v * elapsed, where previous is the
retained slot value (0 on the first visit) and elapsed is
current_time - previous_time, taken as 1 on the first round (negative
`previous_time` sentinel). -/
theorem integrate_round_formula (stored : Option real_t)
    (previousTime currentTime : times_t) (v : real_t) :
    integrateRound stored previousTime currentTime v
      = stored.getD 0
        + v * (if previousTime < 0 then 1 else currentTime - previousTime) ∧
    integrateRound none previousTime currentTime v
      = 0 + v * delta_time previousTime currentTime :=
  ⟨rfl, rfl⟩

/-- The per-round outputs of `integrate` with constant input `v` along a
device's sequence of round times `ts` (the slot holds `stored`, the
previous round happened at `pt`, negative on the first round). -/
def integrateOutputs (v : real_t) (stored : Option real_t) (pt : times_t) :
    List times_t → List real_t
  | [] => []
  | t :: rest =>
      integrateRound stored pt t v ::
        integrateOutputs v (some (integrateRound stored pt t v)) t rest

theorem integrate_outputs_ge_aux (lo : ℚ) :
    ∀ (ts : List times_t) (s : real_t) (pt : times_t), lo ≤ s → 0 ≤ pt →
      pt ≤ (ts.headD pt) → ts.Chain' (fun a b => a ≤ b) →
      (∀ t ∈ ts, 0 ≤ t) →
      ∀ o ∈ integrateOutputs 1 (some s) pt ts, lo ≤ o := by
  intro ts
  induction ts with
  | nil =>
      intro s pt _ _ _ _ _ o ho
      exact absurd ho (List.not_mem_nil o)
  | cons t rest ih =>
      intro s pt hs hpt hhead hchain hnn o ho
      have hptt : pt ≤ t := by simpa using hhead
      have hout : integrateRound (some s) pt t 1 = s + (t - pt) := by
        rw [integrateRound, old, delta_time, if_neg (not_lt.mpr hpt)]
        simp
      have hge : lo ≤ integrateRound (some s) pt t 1 := by
        rw [hout]
        linarith
      rcases List.mem_cons.mp ho with he | hm
      · rw [he]
        exact hge
      · have hchain' : rest.Chain' (fun a b => a ≤ b) :=
          (List.chain'_cons'.mp hchain).2
        have hhead' : t ≤ rest.headD t := by
          rcases rest with _ | ⟨t1, rest1⟩
          · simp
          · simpa using (List.chain'_cons.mp hchain).1
        have ht0 : (0 : ℚ) ≤ t := hnn t (List.mem_cons_self t rest)
        exact ih (integrateRound (some s) pt t 1) t hge ht0 hhead' hchain'
          (fun u hu => hnn u (List.mem_cons_of_mem t hu)) o hm

/-- C9: under monotone round times (previous time negative only before
the first round, each later round no earlier than the one before), every
per-round value of `integrate(CALL, 1)` — the denominator of the
time-weighted average in `stable_diameter` — is at least 1, hence never
zero. -/
theorem integrate_denominator_ge_one (pt0 : times_t) (ts : List times_t)
    (h0 : pt0 < 0) (hnn : ∀ t ∈ ts, 0 ≤ t)
    (hmono : ts.Chain' (fun a b => a ≤ b)) :
    ∀ o ∈ integrateOutputs 1 none pt0 ts, 1 ≤ o ∧ o ≠ 0 := by
  intro o ho
  have h1 : 1 ≤ o := by
    rcases ts with _ | ⟨t, rest⟩
    · exact absurd ho (List.not_mem_nil o)
    · have hfirst : integrateRound none pt0 t 1 = 1 := by
        rw [integrateRound, old, delta_time, if_pos h0]
        simp
      rcases List.mem_cons.mp ho with he | hm
      · rw [he, hfirst]
      · have ht0 : (0 : ℚ) ≤ t := hnn t (List.mem_cons_self t rest)
        have hhead' : t ≤ rest.headD t := by
          rcases rest with _ | ⟨t1, rest1⟩
          · simp
          · simpa using (List.chain'_cons.mp hmono).1
        have hchain' : rest.Chain' (fun a b => a ≤ b) :=
          (List.chain'_cons'.mp hmono).2
        rw [hfirst] at hm
        exact integrate_outputs_ge_aux 1 rest 1 t (le_refl 1) ht0 hhead'
          hchain' (fun u hu => hnn u (List.mem_cons_of_mem t hu)) o hm
  exact ⟨h1, fun he => by rw [he] at h1; linarith⟩

theorem integrate_denominator_ge_one_witness :
    1 ≤ (integrateOutputs 1 none (-1) [0, 2, 3]).headD 0 ∧
    (integrateOutputs 1 none (-1) [0, 2, 3]).headD 0 ≠ 0 :=
  integrate_denominator_ge_one (-1) [0, 2, 3] (by norm_num)
    (by
      intro t ht
      simp only [List.mem_cons, List.not_mem_nil, or_false] at ht
      rcases ht with h | h | h <;> norm_num [h])
    (by
      refine List.chain'_cons.mpr ⟨by norm_num, ?_⟩
      refine List.chain'_cons.mpr ⟨by norm_num, ?_⟩
      exact List.chain'_singleton 3)
    ((integrateOutputs 1 none (-1) [0, 2, 3]).headD 0)
    (by
      have houts : integrateOutputs 1 none (-1) [0, 2, 3] = [1, 3, 4] := by
        norm_num [integrateOutputs, integrateRound, old, delta_time]
      rw [houts]
      simp)

/-- The time-weighted average distance computed in `stable_diameter`
(examples.hpp:223-229): the division `integrate(z) / integrate(1)`. -/
def stableAvgd (num den : real_t) : real_t := num / den

/-- C5 (amended): at the device's very first round the denominator
`integrate(CALL, 1)` of the division in `stable_diameter` evaluates to
exactly 1 — not 0 — because `delta_time` is 1 under the negative
`previous_time` sentinel; the division is then by a nonzero value and the
first-round average equals the numerator. -/
theorem stable_denominator_first_round_one (pt0 ct : times_t)
    (h0 : pt0 < 0) :
    integrateRound none pt0 ct 1 = 1 ∧
    integrateRound none pt0 ct 1 ≠ 0 ∧
    (∀ z : real_t, stableAvgd z (integrateRound none pt0 ct 1) = z) := by
  have h1 : integrateRound none pt0 ct 1 = 1 := by
    rw [integrateRound, old, delta_time, if_pos h0]
    simp
  refine ⟨h1, by rw [h1]; norm_num, fun z => by rw [stableAvgd, h1, div_one]⟩

theorem stable_denominator_first_round_one_witness :
    integrateRound none (-1) 0 1 = 1 ∧
    integrateRound none (-1) 0 1 ≠ 0 ∧
    (∀ z : real_t, stableAvgd z (integrateRound none (-1) 0 1) = z) :=
  stable_denominator_first_round_one (-1) 0 (by norm_num)

/-- C5 (counterexample): the denominator integral is not zero at the very
first round — with the first-visit slot and the negative previous-time
sentinel it evaluates to 1, so the claimed zero-denominator case does not
arise there. -/
theorem stable_denominator_zero_counterexample :
    integrateRound none (-1) 0 1 = 1 ∧ ¬ integrateRound none (-1) 0 1 = 0 := by
  constructor
  · norm_num [integrateRound, old, delta_time]
  · norm_num [integrateRound, old, delta_time]

end Fcpp
